import Mathlib

/-!
Shallow embedding of `src/main.py` (S-box and P-box byte transforms).

Modelling conventions:
* Python non-negative integers become `Nat`; bitwise operators map to
  `Nat.land`, `Nat.lor`, `Nat.shiftLeft`, `Nat.shiftRight` (written
  `&&&`, `|||`, `<<<`, `>>>`).
* Python list reads `lst[i]` that are provably in range in every reachable
  call (the nibble and bit indices produced by masking, read from the fixed
  16- and 8-entry tables) are modelled with `List.getD lst i 0`.
* The list store `inverse[j] = i` inside the inverse-derivation loops can
  fail in Python (an `IndexError` when `j` is at or beyond the list
  length), so those loops are modelled in `Option`: `none` is the Python
  exception.
-/

/-- The fixed 16-entry substitution table `S_BOX` from `src/main.py`. -/
def S_BOX : List Nat := [
  0xE, 0x4, 0xD, 0x1,
  0x2, 0xF, 0xB, 0x8,
  0x3, 0xA, 0x6, 0xC,
  0x5, 0x9, 0x0, 0x7
]

/-- Body shared by `s_box_encrypt` and `s_box_decrypt`, which differ only
in the table they read: split the input byte into high and low nibble,
look each up in the table, reassemble.  The nibble indices are below 16
by the masks, so the Python reads `table[nibble]` never fail on the
16-entry tables. -/
def nibble_substitute (table : List Nat) (input_byte : Nat) : Nat :=
  let high_nibble := (input_byte &&& 0xF0) >>> 4
  let low_nibble := input_byte &&& 0x0F
  let high_nibble_sub := table.getD high_nibble 0
  let low_nibble_sub := table.getD low_nibble 0
  (high_nibble_sub <<< 4) ||| low_nibble_sub

/-- Function `s_box_encrypt(input_byte)` from `src/main.py`: nibble-wise
lookup in `S_BOX`. -/
def s_box_encrypt (input_byte : Nat) : Nat :=
  nibble_substitute S_BOX input_byte

/-- The loop body shared by `generate_inverse_s_box` and
`generate_inverse_p_box`: `inverse[t[i]] = i`, where the store fails
(Python `IndexError`, here `none`) when `t[i]` is at or beyond the length
of the accumulator list. -/
def invert_step (t : List Nat) (inv : List Nat) (i : Nat) : Option (List Nat) :=
  match t[i]? with
  | some v => if v < inv.length then some (inv.set v i) else none
  | none => none

/-- The inverse-derivation loop shared by both generators: start from a
zero list of length `n` and run `inverse[t[i]] = i` for `i` in `0..n`. -/
def invert_table (t : List Nat) (n : Nat) : Option (List Nat) :=
  (List.range n).foldlM (invert_step t) (List.replicate n 0)

/-- Function `generate_inverse_s_box(s_box)` from `src/main.py`:
`inverse_s_box = [0]*16`, then `inverse_s_box[s_box[i]] = i` for `i` in
`0..16`.  `none` models the Python `IndexError` on an entry at or
beyond 16. -/
def generate_inverse_s_box (s_box : List Nat) : Option (List Nat) :=
  invert_table s_box 16

/-- The module-level constant `INVERSE_S_BOX = generate_inverse_s_box(S_BOX)`.
The derivation succeeds on the fixed `S_BOX` (see
`generate_inverse_s_box_S_BOX`), so the `getD` default is never used. -/
def INVERSE_S_BOX : List Nat :=
  (generate_inverse_s_box S_BOX).getD (List.replicate 16 0)

/-- Function `s_box_decrypt(input_byte)` from `src/main.py`: nibble-wise
lookup in `INVERSE_S_BOX`. -/
def s_box_decrypt (input_byte : Nat) : Nat :=
  nibble_substitute INVERSE_S_BOX input_byte

/-- The fixed 8-entry permutation table `P_BOX` from `src/main.py`. -/
def P_BOX : List Nat := [1, 5, 2, 0, 3, 7, 4, 6]

/-- Function `permute(input_byte, permutation)` from `src/main.py`: for
each output position `i` in `0..8`, extract bit `permutation[i]` of the
input and OR it into position `i` of the output.  The Python read
`permutation[i]` fails if the table is shorter than 8; every call site in
the source and every claim uses length-8 tables, so it is modelled with
`getD`. -/
def permute (input_byte : Nat) (permutation : List Nat) : Nat :=
  (List.range 8).foldl
    (fun output_byte i =>
      output_byte ||| (((input_byte >>> permutation.getD i 0) &&& 0x01) <<< i))
    0

/-- Function `p_box_encrypt(input_byte)` from `src/main.py`. -/
def p_box_encrypt (input_byte : Nat) : Nat :=
  permute input_byte P_BOX

/-- Function `generate_inverse_p_box(permutation)` from `src/main.py`:
`inverse = [0]*len(permutation)`, then `inverse[p] = i` for `i, p` in
`enumerate(permutation)`.  `none` models the Python `IndexError` on an
entry at or beyond `len(permutation)`. -/
def generate_inverse_p_box (permutation : List Nat) : Option (List Nat) :=
  invert_table permutation permutation.length

/-- The module-level constant `INVERSE_P_BOX = generate_inverse_p_box(P_BOX)`.
The derivation succeeds on the fixed `P_BOX` (see
`generate_inverse_p_box_P_BOX`), so the `getD` default is never used. -/
def INVERSE_P_BOX : List Nat :=
  (generate_inverse_p_box P_BOX).getD (List.replicate 8 0)

/-- Function `p_box_decrypt(input_byte)` from `src/main.py`. -/
def p_box_decrypt (input_byte : Nat) : Nat :=
  permute input_byte INVERSE_P_BOX

/-- A table is a bijection on its index range `0..n`: length `n`, every
entry below `n`, no duplicate entries. -/
def isBijectiveTable (t : List Nat) (n : Nat) : Prop :=
  t.length = n ∧ (∀ v ∈ t, v < n) ∧ t.Nodup

instance (t : List Nat) (n : Nat) : Decidable (isBijectiveTable t n) := by
  unfold isBijectiveTable
  infer_instance

set_option maxRecDepth 10000

/-! Helper lemmas. -/

/-- The import-time derivation of `INVERSE_S_BOX` succeeds and yields the
expected table. -/
theorem generate_inverse_s_box_S_BOX :
    generate_inverse_s_box S_BOX = some INVERSE_S_BOX := by decide

/-- The import-time derivation of `INVERSE_P_BOX` succeeds and yields the
expected table. -/
theorem generate_inverse_p_box_P_BOX :
    generate_inverse_p_box P_BOX = some INVERSE_P_BOX := by decide

/-- Bit `j` of the partial permutation fold over output positions `0..k`:
positions below `k` hold the gathered source bit, positions at or above
`k` are still zero. -/
theorem permute_foldl_testBit (b : Nat) (tab : List Nat) :
    ∀ (k j : Nat),
      (((List.range k).foldl
          (fun output_byte i =>
            output_byte ||| (((b >>> tab.getD i 0) &&& 0x01) <<< i)) 0).testBit j)
        = (decide (j < k) && b.testBit (tab.getD j 0)) := by
  intro k
  induction k with
  | zero =>
    intro j
    simp [Nat.zero_testBit]
  | succ k ih =>
    intro j
    rw [List.range_succ, List.foldl_append, List.foldl_cons, List.foldl_nil,
      Nat.testBit_or, ih j, Nat.testBit_shiftLeft]
    rcases Nat.lt_trichotomy j k with hj | hj | hj
    · have h1 : ¬ (j ≥ k) := by omega
      simp [hj, h1, Nat.lt_succ_of_lt hj]
    · subst hj
      have h1 : j ≥ j := le_refl j
      simp only [Nat.lt_irrefl, decide_False, Bool.false_and, Bool.false_or,
        ge_iff_le, h1, decide_True, Bool.true_and, Nat.sub_self]
      rw [Nat.testBit_and, Nat.testBit_shiftRight]
      simp [Nat.lt_succ_self]
    · have h1 : ¬ (j < k) := by omega
      have h2 : ¬ (j < k + 1) := by omega
      have h3 : j ≥ k := by omega
      have h4 : j - k ≠ 0 := by omega
      simp only [h1, decide_False, Bool.false_and, Bool.false_or, ge_iff_le, h3,
        decide_True, Bool.true_and, h2]
      rw [Nat.testBit_and]
      have h5 : Nat.testBit 0x01 (j - k) = false :=
        Nat.testBit_lt_two_pow (Nat.one_lt_two_pow h4)
      simp [h5]

/-- Masking a non-negative integer to its low byte commutes with AND by a
sub-byte mask. -/
theorem mod256_and_eq (n m : Nat) (hm : m < 256) :
    (n % 256) &&& m = n &&& m := by
  apply Nat.eq_of_testBit_eq
  intro i
  rw [Nat.testBit_and, Nat.testBit_and,
    show (256 : Nat) = 2 ^ 8 from rfl, Nat.testBit_mod_two_pow]
  by_cases hi : i < 8
  · simp [hi]
  · have h1 : m.testBit i = false := by
      apply Nat.testBit_lt_two_pow
      calc m < 256 := hm
        _ = 2 ^ 8 := rfl
        _ ≤ 2 ^ i := Nat.pow_le_pow_right (by omega) (by omega)
    simp [h1]

/-- Extracting bit `p` (for `p < 8`) is unchanged by masking to the low
byte. -/
theorem shiftRight_and_one_mod256 (n p : Nat) (hp : p < 8) :
    ((n % 256) >>> p) &&& 0x01 = (n >>> p) &&& 0x01 := by
  apply Nat.eq_of_testBit_eq
  intro j
  rw [Nat.testBit_and, Nat.testBit_and, Nat.testBit_shiftRight, Nat.testBit_shiftRight]
  cases j with
  | zero =>
    rw [Nat.add_zero, show (256 : Nat) = 2 ^ 8 from rfl, Nat.testBit_mod_two_pow]
    simp [hp]
  | succ j =>
    have h1 : Nat.testBit 0x01 (j + 1) = false :=
      Nat.testBit_lt_two_pow (Nat.one_lt_two_pow (by omega))
    simp [h1]

/-- Applying `permute` with a length-8 in-range table reads only the low
byte of the input. -/
theorem permute_mod256 (n : Nat) (tab : List Nat)
    (hlen : tab.length = 8) (hval : ∀ v ∈ tab, v < 8) :
    permute (n % 256) tab = permute n tab := by
  unfold permute
  apply List.foldl_ext
  intro acc i hi
  have hi8 : i < tab.length := by
    rw [hlen]
    exact List.mem_range.mp hi
  have hp : tab.getD i 0 < 8 := by
    rw [List.getD_eq_getElem tab 0 hi8]
    exact hval _ (List.getElem_mem hi8)
  rw [shiftRight_and_one_mod256 n (tab.getD i 0) hp]

/-- All four transforms read only the low byte of the input. -/
theorem transforms_mod256 (n : Nat) :
    s_box_encrypt (n % 256) = s_box_encrypt n ∧
    s_box_decrypt (n % 256) = s_box_decrypt n ∧
    p_box_encrypt (n % 256) = p_box_encrypt n ∧
    p_box_decrypt (n % 256) = p_box_decrypt n := by
  refine ⟨?_, ?_, ?_, ?_⟩
  · unfold s_box_encrypt nibble_substitute
    rw [mod256_and_eq n 0xF0 (by omega), mod256_and_eq n 0x0F (by omega)]
  · unfold s_box_decrypt nibble_substitute
    rw [mod256_and_eq n 0xF0 (by omega), mod256_and_eq n 0x0F (by omega)]
  · exact permute_mod256 n P_BOX (by decide) (by decide)
  · exact permute_mod256 n INVERSE_P_BOX (by decide) (by decide)

/-- Reading a just-written position of a list store. -/
theorem getD_set_self (l : List Nat) (v i : Nat) (h : v < l.length) :
    (l.set v i).getD v 0 = i := by
  rw [List.getD_eq_getElem?_getD, List.getElem?_set_self h]
  rfl

/-- Reading an untouched position of a list store. -/
theorem getD_set_ne (l : List Nat) (v i j : Nat) (h : v ≠ j) :
    (l.set v i).getD j 0 = l.getD j 0 := by
  rw [List.getD_eq_getElem?_getD, List.getElem?_set_ne h,
    ← List.getD_eq_getElem?_getD]

/-- Running the derivation loop body over a list of indices whose table
values all fit in the accumulator: the loop succeeds, preserves length,
leaves unwritten positions unchanged, and stores `i` at position `t[i]`
whenever `i` is the unique index among `idxs` with that table value. -/
theorem invert_loop_spec (t : List Nat) :
    ∀ (idxs : List Nat) (acc : List Nat),
      (∀ i ∈ idxs, i < t.length ∧ t.getD i 0 < acc.length) →
      ∃ out, idxs.foldlM (invert_step t) acc = some out ∧
        out.length = acc.length ∧
        (∀ j, (∀ i ∈ idxs, t.getD i 0 ≠ j) → out.getD j 0 = acc.getD j 0) ∧
        (∀ i ∈ idxs, (∀ i' ∈ idxs, t.getD i' 0 = t.getD i 0 → i' = i) →
          out.getD (t.getD i 0) 0 = i) := by
  intro idxs
  induction idxs with
  | nil =>
    intro acc _
    exact ⟨acc, by simp, rfl, fun j _ => rfl, by simp⟩
  | cons i rest ih =>
    intro acc h
    obtain ⟨hi, hv⟩ := h i (List.mem_cons_self i rest)
    have ht : t[i]? = some (t.getD i 0) := by
      rw [List.getElem?_eq_getElem hi, List.getD_eq_getElem t 0 hi]
    have hstep : invert_step t acc i = some (acc.set (t.getD i 0) i) := by
      unfold invert_step
      rw [ht]
      exact if_pos hv
    have hrest : ∀ i' ∈ rest, i' < t.length ∧
        t.getD i' 0 < (acc.set (t.getD i 0) i).length := by
      intro i' hi'
      obtain ⟨h1, h2⟩ := h i' (List.mem_cons_of_mem i hi')
      exact ⟨h1, by simpa using h2⟩
    obtain ⟨out, hout, hlen, huntouched, hwritten⟩ := ih (acc.set (t.getD i 0) i) hrest
    refine ⟨out, ?_, ?_, ?_, ?_⟩
    · rw [List.foldlM_cons, hstep]
      simpa using hout
    · rw [hlen, List.length_set]
    · intro j hj
      have h1 : t.getD i 0 ≠ j := hj i (List.mem_cons_self i rest)
      have h2 : out.getD j 0 = (acc.set (t.getD i 0) i).getD j 0 :=
        huntouched j (fun i' hi' => hj i' (List.mem_cons_of_mem i hi'))
      rw [h2, getD_set_ne acc _ i j h1]
    · intro i'' hmem huniq
      rcases List.mem_cons.mp hmem with rfl | hmem'
      · by_cases hrest' : ∀ i' ∈ rest, t.getD i' 0 ≠ t.getD i'' 0
        · have h2 := huntouched (t.getD i'' 0) hrest'
          rw [h2, getD_set_self acc _ i'' hv]
        · push_neg at hrest'
          obtain ⟨i', hi', heq⟩ := hrest'
          have heqi : i' = i'' := huniq i' (List.mem_cons_of_mem i'' hi') heq
          subst heqi
          exact hwritten i' hi'
            (fun a ha hb => huniq a (List.mem_cons_of_mem i' ha) hb)
      · exact hwritten i'' hmem'
          (fun a ha hb => huniq a (List.mem_cons_of_mem i ha) hb)

/-- If some index in the list has a table value that does not fit in the
accumulator, the derivation loop fails (the Python store raises an
`IndexError`). -/
theorem invert_loop_none (t : List Nat) :
    ∀ (idxs : List Nat) (acc : List Nat),
      (∀ i ∈ idxs, i < t.length) →
      (∃ i ∈ idxs, acc.length ≤ t.getD i 0) →
      idxs.foldlM (invert_step t) acc = none := by
  intro idxs
  induction idxs with
  | nil =>
    intro acc _ hex
    simp at hex
  | cons i rest ih =>
    intro acc hlt hex
    have hi : i < t.length := hlt i (List.mem_cons_self i rest)
    have ht : t[i]? = some (t.getD i 0) := by
      rw [List.getElem?_eq_getElem hi, List.getD_eq_getElem t 0 hi]
    by_cases hcase : t.getD i 0 < acc.length
    · have hstep : invert_step t acc i = some (acc.set (t.getD i 0) i) := by
        unfold invert_step
        rw [ht]
        exact if_pos hcase
      obtain ⟨i0, hi0, hge⟩ := hex
      rcases List.mem_cons.mp hi0 with rfl | hmem'
      · omega
      · rw [List.foldlM_cons, hstep]
        have hrec : rest.foldlM (invert_step t) (acc.set (t.getD i 0) i) = none := by
          apply ih
          · exact fun a ha => hlt a (List.mem_cons_of_mem i ha)
          · exact ⟨i0, hmem', by simpa using hge⟩
        simpa using hrec
    · have hstep : invert_step t acc i = none := by
        unfold invert_step
        rw [ht]
        exact if_neg hcase
      rw [List.foldlM_cons, hstep]
      rfl

/-- With every entry in range, the derivation succeeds. -/
theorem invert_table_isSome (t : List Nat) (n : Nat)
    (hlen : t.length = n) (hval : ∀ v ∈ t, v < n) :
    (invert_table t n).isSome := by
  unfold invert_table
  obtain ⟨out, hout, -⟩ := invert_loop_spec t (List.range n) (List.replicate n 0)
    (by
      intro i hi
      have hin : i < n := List.mem_range.mp hi
      have hit : i < t.length := by omega
      refine ⟨hit, ?_⟩
      rw [List.length_replicate, List.getD_eq_getElem t 0 hit]
      exact hval _ (List.getElem_mem hit))
  rw [hout]
  rfl

/-- With an out-of-range entry, the derivation fails. -/
theorem invert_table_none (t : List Nat) (n : Nat)
    (hlen : t.length = n) (hex : ∃ v ∈ t, n ≤ v) :
    invert_table t n = none := by
  unfold invert_table
  obtain ⟨v, hvmem, hvge⟩ := hex
  obtain ⟨i, hit, hiv⟩ := List.mem_iff_getElem.mp hvmem
  apply invert_loop_none
  · intro a ha
    have := List.mem_range.mp ha
    omega
  · refine ⟨i, List.mem_range.mpr (by omega), ?_⟩
    rw [List.length_replicate, List.getD_eq_getElem t 0 hit, hiv]
    exact hvge

/-- On a bijective table the derivation returns a bijective table that
inverts it position-wise. -/
theorem invert_table_bij (t : List Nat) (n : Nat) (h : isBijectiveTable t n) :
    ∃ u, invert_table t n = some u ∧ isBijectiveTable u n ∧
      ∀ i, i < n → u.getD (t.getD i 0) 0 = i := by
  obtain ⟨hlen, hval, hnodup⟩ := h
  have hinj : ∀ i < n, ∀ i' < n, t.getD i' 0 = t.getD i 0 → i' = i := by
    intro i hi i' hi' heq
    have hit : i < t.length := by omega
    have hit' : i' < t.length := by omega
    rw [List.getD_eq_getElem t 0 hit', List.getD_eq_getElem t 0 hit] at heq
    have := List.nodup_iff_injective_get.mp hnodup
      (show t.get ⟨i', hit'⟩ = t.get ⟨i, hit⟩ by simpa using heq)
    simpa using this
  obtain ⟨u, hu, hulen, huuntouched, huwritten⟩ :=
    invert_loop_spec t (List.range n) (List.replicate n 0)
      (by
        intro i hi
        have hin : i < n := List.mem_range.mp hi
        have hit : i < t.length := by omega
        refine ⟨hit, ?_⟩
        rw [List.length_replicate, List.getD_eq_getElem t 0 hit]
        exact hval _ (List.getElem_mem hit))
  have hwrite : ∀ i, i < n → u.getD (t.getD i 0) 0 = i := by
    intro i hi
    exact huwritten i (List.mem_range.mpr hi)
      (fun i' hi' heq => hinj i hi i' (List.mem_range.mp hi') heq)
  have hsurj : ∀ j, j < n → ∃ i, i < n ∧ t.getD i 0 = j := by
    have hft : t.toFinset = Finset.range n := by
      apply Finset.eq_of_subset_of_card_le
      · intro x hx
        rw [List.mem_toFinset] at hx
        rw [Finset.mem_range]
        exact hval x hx
      · rw [Finset.card_range, List.toFinset_card_of_nodup hnodup, hlen]
    intro j hj
    have hjm : j ∈ t := by
      rw [← List.mem_toFinset, hft, Finset.mem_range]
      exact hj
    obtain ⟨i, hit, hiv⟩ := List.mem_iff_getElem.mp hjm
    exact ⟨i, by omega, by rw [List.getD_eq_getElem t 0 hit]; exact hiv⟩
  have hulen' : u.length = n := by
    rw [hulen, List.length_replicate]
  have huval : ∀ v ∈ u, v < n := by
    intro v hv
    obtain ⟨j, hju, hjv⟩ := List.mem_iff_getElem.mp hv
    have hjn : j < n := by omega
    obtain ⟨i, hin, hit⟩ := hsurj j hjn
    have he : u.getD j 0 = i := by
      rw [← hit]
      exact hwrite i hin
    rw [List.getD_eq_getElem u 0 hju] at he
    omega
  have hunodup : u.Nodup := by
    rw [List.nodup_iff_injective_get]
    intro ⟨j1, hj1⟩ ⟨j2, hj2⟩ heq
    simp only [List.get_eq_getElem] at heq
    have hj1n : j1 < n := by omega
    have hj2n : j2 < n := by omega
    obtain ⟨i1, hi1n, hi1⟩ := hsurj j1 hj1n
    obtain ⟨i2, hi2n, hi2⟩ := hsurj j2 hj2n
    have e1 : u.getD j1 0 = i1 := by rw [← hi1]; exact hwrite i1 hi1n
    have e2 : u.getD j2 0 = i2 := by rw [← hi2]; exact hwrite i2 hi2n
    rw [List.getD_eq_getElem u 0 hj1] at e1
    rw [List.getD_eq_getElem u 0 hj2] at e2
    have hieq : i1 = i2 := by omega
    subst hieq
    have hjeq : j1 = j2 := by rw [← hi1, ← hi2]
    simpa using hjeq
  refine ⟨u, ?_, ⟨hulen', huval, hunodup⟩, hwrite⟩
  unfold invert_table
  exact hu

/-- Deriving the inverse twice returns the original bijective table. -/
theorem invert_table_involution (t : List Nat) (n : Nat)
    (h : isBijectiveTable t n) :
    (invert_table t n).bind (fun u => invert_table u n) = some t := by
  obtain ⟨u, hu, hub, huinv⟩ := invert_table_bij t n h
  obtain ⟨w, hw, hwb, hwinv⟩ := invert_table_bij u n hub
  rw [hu, Option.some_bind, hw]
  congr 1
  apply List.ext_getElem
  · rw [hwb.1, h.1]
  · intro i h1 h2
    have hin : i < n := by
      have := h.1
      omega
    have htv : t.getD i 0 < n := by
      have hit : i < t.length := by omega
      rw [List.getD_eq_getElem t 0 hit]
      exact h.2.1 _ (List.getElem_mem hit)
    have h3 := huinv i hin
    have h4 := hwinv (t.getD i 0) htv
    rw [h3] at h4
    have hiw : i < w.length := h1
    have hit : i < t.length := h2
    rw [List.getD_eq_getElem w 0 hiw, List.getD_eq_getElem t 0 hit] at h4
    exact h4

/-! Claim theorems. -/

/-- C1: with the fixed table `S_BOX` and derived `INVERSE_S_BOX`, the
substitution round-trips: for every byte `b` in `0..256`,
`s_box_decrypt (s_box_encrypt b) = b` and symmetrically. -/
theorem C1_sbox_round_trip (b : Nat) (hb : b < 256) :
    s_box_decrypt (s_box_encrypt b) = b ∧ s_box_encrypt (s_box_decrypt b) = b := by
  have h : ∀ x : Fin 256,
      s_box_decrypt (s_box_encrypt x.val) = x.val ∧
      s_box_encrypt (s_box_decrypt x.val) = x.val := by decide
  exact h ⟨b, hb⟩

/-- Witness for C1 at the concrete byte 179. -/
theorem C1_sbox_round_trip_witness :
    179 < 256 ∧
    (s_box_decrypt (s_box_encrypt 179) = 179 ∧
     s_box_encrypt (s_box_decrypt 179) = 179) :=
  ⟨by decide, C1_sbox_round_trip 179 (by decide)⟩

/-- C2: with the fixed table `P_BOX` and derived `INVERSE_P_BOX`, the
permutation round-trips: for every byte `b` in `0..256`,
`p_box_decrypt (p_box_encrypt b) = b` and symmetrically. -/
theorem C2_pbox_round_trip (b : Nat) (hb : b < 256) :
    p_box_decrypt (p_box_encrypt b) = b ∧ p_box_encrypt (p_box_decrypt b) = b := by
  have h : ∀ x : Fin 256,
      p_box_decrypt (p_box_encrypt x.val) = x.val ∧
      p_box_encrypt (p_box_decrypt x.val) = x.val := by decide
  exact h ⟨b, hb⟩

/-- Witness for C2 at the concrete byte 179. -/
theorem C2_pbox_round_trip_witness :
    179 < 256 ∧
    (p_box_decrypt (p_box_encrypt 179) = 179 ∧
     p_box_encrypt (p_box_decrypt 179) = 179) :=
  ⟨by decide, C2_pbox_round_trip 179 (by decide)⟩

/-- Counterexample to C3: the all-zero 16-entry table has every value
duplicated, yet `generate_inverse_s_box` does not fail: it silently
returns the table `15, 0, ..., 0`, which is not an inverse of the input
(the entry at index `table[1] = 0` is 15, not 1). -/
theorem C3_counterexample :
    generate_inverse_s_box (List.replicate 16 0) = some (15 :: List.replicate 15 0) ∧
    (15 :: List.replicate 15 0).getD ((List.replicate 16 0).getD 1 0) 0 ≠ 1 := by
  decide

/-- C3 amended: derivation on a 16-entry (resp. 8-entry) table fails on
an out-of-range entry — with an index error, modelled as `none`, not a
`ConfigError` — while a table whose entries are all in range is never
rejected, even when entries are duplicated: derivation silently succeeds
(and on a duplicated table the result is not an inverse, see the
counterexample). -/
theorem C3_amended_no_validation (t p : List Nat)
    (hts : t.length = 16) (hps : p.length = 8) :
    ((∃ v ∈ t, 16 ≤ v) → generate_inverse_s_box t = none) ∧
    ((∀ v ∈ t, v < 16) → (generate_inverse_s_box t).isSome) ∧
    ((∃ v ∈ p, 8 ≤ v) → generate_inverse_p_box p = none) ∧
    ((∀ v ∈ p, v < 8) → (generate_inverse_p_box p).isSome) := by
  refine ⟨?_, ?_, ?_, ?_⟩
  · intro hex
    exact invert_table_none t 16 hts hex
  · intro hval
    exact invert_table_isSome t 16 hts hval
  · intro hex
    unfold generate_inverse_p_box
    rw [hps]
    exact invert_table_none p 8 hps hex
  · intro hval
    unfold generate_inverse_p_box
    rw [hps]
    exact invert_table_isSome p 8 hps hval

/-- Witness for the amended C3 at tables containing one out-of-range
entry. -/
theorem C3_amended_no_validation_witness :
    ((∃ v ∈ (List.range 15 ++ [16]), 16 ≤ v) →
      generate_inverse_s_box (List.range 15 ++ [16]) = none) ∧
    ((∀ v ∈ (List.range 15 ++ [16]), v < 16) →
      (generate_inverse_s_box (List.range 15 ++ [16])).isSome) ∧
    ((∃ v ∈ (List.range 7 ++ [8]), 8 ≤ v) →
      generate_inverse_p_box (List.range 7 ++ [8]) = none) ∧
    ((∀ v ∈ (List.range 7 ++ [8]), v < 8) →
      (generate_inverse_p_box (List.range 7 ++ [8])).isSome) :=
  C3_amended_no_validation (List.range 15 ++ [16]) (List.range 7 ++ [8])
    (by decide) (by decide)

/-- Counterexample to C4: the input 256 lies outside `0..255` and is not
masked by the caller, yet no transform fails: each returns the value of
the masked input `256 % 256 = 0`. -/
theorem C4_counterexample :
    s_box_encrypt 256 = s_box_encrypt 0 ∧ s_box_decrypt 256 = s_box_decrypt 0 ∧
    p_box_encrypt 256 = p_box_encrypt 0 ∧ p_box_decrypt 256 = p_box_decrypt 0 ∧
    s_box_encrypt 256 = 238 := by decide

/-- C4 amended: an input at or above 256 (outside `0..255`, unmasked by
the caller) makes no transform fail; each silently returns the value of
the masked input `n % 256`. -/
theorem C4_amended_silent_masking (n : Nat) (_hn : 256 ≤ n) :
    s_box_encrypt n = s_box_encrypt (n % 256) ∧
    s_box_decrypt n = s_box_decrypt (n % 256) ∧
    p_box_encrypt n = p_box_encrypt (n % 256) ∧
    p_box_decrypt n = p_box_decrypt (n % 256) := by
  obtain ⟨h1, h2, h3, h4⟩ := transforms_mod256 n
  exact ⟨h1.symm, h2.symm, h3.symm, h4.symm⟩

/-- Witness for the amended C4 at the out-of-range input 300. -/
theorem C4_amended_silent_masking_witness :
    256 ≤ 300 ∧
    (s_box_encrypt 300 = s_box_encrypt (300 % 256) ∧
     s_box_decrypt 300 = s_box_decrypt (300 % 256) ∧
     p_box_encrypt 300 = p_box_encrypt (300 % 256) ∧
     p_box_decrypt 300 = p_box_decrypt (300 % 256)) :=
  ⟨by decide, C4_amended_silent_masking 300 (by decide)⟩

/-- C5: inverse derivation is an involution on bijective tables: deriving
the inverse of the derived inverse returns the original table, for every
16-entry table bijective on `0..16` and every 8-entry table bijective on
`0..8`. -/
theorem C5_double_inverse :
    (∀ S : List Nat, isBijectiveTable S 16 →
      (generate_inverse_s_box S).bind generate_inverse_s_box = some S) ∧
    (∀ P : List Nat, isBijectiveTable P 8 →
      (generate_inverse_p_box P).bind generate_inverse_p_box = some P) := by
  constructor
  · intro S h
    exact invert_table_involution S 16 h
  · intro P h
    have h8 : P.length = 8 := h.1
    obtain ⟨u, hu, hub, -⟩ := invert_table_bij P 8 h
    have hinv := invert_table_involution P 8 h
    rw [hu, Option.some_bind] at hinv
    unfold generate_inverse_p_box
    rw [h8, hu, Option.some_bind, hub.1]
    exact hinv

/-- Witness for C5 at the concrete tables `S_BOX` and `P_BOX`. -/
theorem C5_double_inverse_witness :
    (generate_inverse_s_box S_BOX).bind generate_inverse_s_box = some S_BOX ∧
    (generate_inverse_p_box P_BOX).bind generate_inverse_p_box = some P_BOX :=
  ⟨C5_double_inverse.1 S_BOX (by decide), C5_double_inverse.2 P_BOX (by decide)⟩

/-- C6: `permute` is a bit gather: for every byte `b`, every length-8
table with entries in `0..8`, and every output position `i` in `0..8`,
bit `i` of `permute b table` is bit `table[i]` of `b`. -/
theorem C6_permute_bit_gather (b : Nat) (_hb : b < 256) (table : List Nat)
    (_hlen : table.length = 8) (_hval : ∀ v ∈ table, v < 8)
    (i : Nat) (hi : i < 8) :
    (permute b table).testBit i = b.testBit (table.getD i 0) := by
  unfold permute
  rw [permute_foldl_testBit b table 8 i]
  simp [hi]

/-- Witness for C6 at byte 179, table `P_BOX`, output position 2. -/
theorem C6_permute_bit_gather_witness :
    (permute 179 P_BOX).testBit 2 = Nat.testBit 179 (P_BOX.getD 2 0) :=
  C6_permute_bit_gather 179 (by decide) P_BOX (by decide) (by decide) 2 (by decide)

/-- C7: with the fixed `S_BOX`, byte 179 substitutes to 193, and 193
decrypts back to 179 through the derived inverse table. -/
theorem C7_concrete_sbox :
    s_box_encrypt 179 = 193 ∧ s_box_decrypt 193 = 179 := by decide

/-- C8: with the fixed `P_BOX = [1,5,2,0,3,7,4,6]`, byte 179 permutes to
107, and 107 permutes back to 179 through the derived inverse table. -/
theorem C8_concrete_pbox :
    p_box_encrypt 179 = 107 ∧ p_box_decrypt 107 = 179 := by decide

/-- C9: each transform depends only on the low 8 bits of its input and
raises no error on wide inputs: for every `n`, the transform of `n`
equals the transform of `n % 256`. -/
theorem C9_low_byte_only (n : Nat) :
    s_box_encrypt n = s_box_encrypt (n % 256) ∧
    s_box_decrypt n = s_box_decrypt (n % 256) ∧
    p_box_encrypt n = p_box_encrypt (n % 256) ∧
    p_box_decrypt n = p_box_decrypt (n % 256) := by
  obtain ⟨h1, h2, h3, h4⟩ := transforms_mod256 n
  exact ⟨h1.symm, h2.symm, h3.symm, h4.symm⟩

/-- C10: every transform maps a byte to a byte: for `b` in `0..256` each
of the four transforms returns a value below 256. -/
theorem C10_byte_preserving (b : Nat) (hb : b < 256) :
    s_box_encrypt b < 256 ∧ s_box_decrypt b < 256 ∧
    p_box_encrypt b < 256 ∧ p_box_decrypt b < 256 := by
  have h : ∀ x : Fin 256,
      s_box_encrypt x.val < 256 ∧ s_box_decrypt x.val < 256 ∧
      p_box_encrypt x.val < 256 ∧ p_box_decrypt x.val < 256 := by decide
  exact h ⟨b, hb⟩

/-- Witness for C10 at the concrete byte 255. -/
theorem C10_byte_preserving_witness :
    255 < 256 ∧
    (s_box_encrypt 255 < 256 ∧ s_box_decrypt 255 < 256 ∧
     p_box_encrypt 255 < 256 ∧ p_box_decrypt 255 < 256) :=
  ⟨by decide, C10_byte_preserving 255 (by decide)⟩
